import Mathlib

/-!
Verification of the text-analysis core of `src/main.py` (`WebContentAnalyzer`).

Text is modelled as `List Char` (Python `str` over Unicode scalar values).
Regular-expression calls are modelled by equivalent list functions, documented
at each definition.  The `jieba` segmenter is an external collaborator and is
modelled as an optional segmentation function (`none` models the `ImportError`
branch of `extract_keywords`).
-/

namespace WebAnalyzer

/-- Characters in the CJK Unified Ideographs range, i.e. the character class
`[一-鿿]` used in `count_words` and `extract_keywords`. -/
def isCJKChar (c : Char) : Bool :=
  0x4e00 ≤ c.toNat && c.toNat ≤ 0x9fff

/-- Whitespace for Python's `str.split()` / `str.strip()`, modelled on the
ASCII whitespace repertoire (space, tab, newline, carriage return, vertical
tab, form feed); Python additionally treats some rare Unicode spaces as
whitespace, which are irrelevant to the inputs considered here. -/
def isPySpaceChar (c : Char) : Bool :=
  c = ' ' || c = '\t' || c = '\n' || c = '\r' || c.toNat = 11 || c.toNat = 12

/-- Word characters for Python's regex `\b` boundary (`\w` = letters, digits,
underscore; Unicode-aware).  Modelled on the character repertoire relevant to
this program: ASCII letters and digits, underscore, and CJK ideographs (which
are Unicode letters and hence word characters for Python's `re`). -/
def isWordChar (c : Char) : Bool :=
  c.isAlpha || c.isDigit || c = '_' || isCJKChar c

/-- Maximal runs of characters satisfying `p`, accumulator form: `acc` is the
(possibly empty) run in progress. -/
def runsAux (p : Char → Bool) : List Char → List Char → List (List Char)
  | [], acc => if acc.isEmpty then [] else [acc]
  | c :: cs, acc =>
    if p c then runsAux p cs (acc ++ [c])
    else if acc.isEmpty then runsAux p cs [] else acc :: runsAux p cs []

/-- The maximal non-empty runs of characters satisfying `p` in `l`, in order,
with the separating characters discarded. -/
def runs (p : Char → Bool) (l : List Char) : List (List Char) :=
  runsAux p l []

/-- Join a list of words with single spaces: Python's `' '.join(ws)`. -/
def joinSp : List (List Char) → List Char
  | [] => []
  | [w] => w
  | w :: ws => w ++ ' ' :: joinSp ws

/-- The cleaning step `' '.join(text.split())` of `count_words`:
`str.split()` with no argument returns the maximal runs of non-whitespace
characters, and the result is rejoined with single spaces. -/
def normalizeWs (l : List Char) : List Char :=
  joinSp (runs (fun c => !isPySpaceChar c) l)

/-- The dictionary returned by `count_words`. -/
structure WordStats where
  chinese_chars : Nat
  english_words : Nat
  total_chars : Nat
deriving DecidableEq, Repr

/-- `WebContentAnalyzer.count_words`, as a function of `self.text`.
`len(re.findall(r'[一-鿿]', s))` counts the characters in the CJK
class.  A match of `\b[a-zA-Z]+\b` must have non-word characters (or the
string ends) on both sides, and since ASCII letters are word characters the
matches are exactly the maximal word-character runs consisting entirely of
ASCII letters. -/
def count_words (text : List Char) : WordStats :=
  let cleaned_text := normalizeWs text
  { chinese_chars := (cleaned_text.filter isCJKChar).length
    english_words :=
      ((runs isWordChar cleaned_text).filter (fun r => r.all Char.isAlpha)).length
    total_chars := cleaned_text.length }

/-- The Latin keyword tokens `re.findall(r'\b[a-zA-Z]{3,}\b', text.lower())`:
as for `english_words`, the matches are exactly the maximal word-character
runs of the lower-cased text that consist entirely of ASCII letters and have
length at least 3.  (`str.lower()` is modelled by `Char.toLower`, the ASCII
case mapping, which covers the Latin letters the pattern can match.) -/
def latinTokens (text : List Char) : List (List Char) :=
  (runs isWordChar (text.map Char.toLower)).filter
    (fun r => r.all Char.isAlpha && decide (3 ≤ r.length))

/-- The English stop-word set `en_stop_words` of `extract_keywords`. -/
def en_stop_words : List (List Char) :=
  ["the", "and", "for", "are", "but", "not", "you", "all",
   "can", "her", "was", "one", "our", "out", "this", "that",
   "with", "from", "have", "has", "had", "will", "more"].map String.toList

/-- The Chinese stop-word set `zh_stop_words` of `extract_keywords` (the
source lists `及` twice; as in the Python `set`, the duplicate is harmless
for membership). -/
def zh_stop_words : List (List Char) :=
  ["的", "了", "和", "是", "在", "也", "有", "與", "將", "及", "或", "就", "都",
   "而", "及", "著", "以", "對", "由", "及其", "等", "中", "之一", "並"].map String.toList

/-- `filtered_en_words = [w for w in words if w not in en_stop_words]`. -/
def filtered_en_words (text : List Char) : List (List Char) :=
  (latinTokens text).filter (fun w => !decide (w ∈ en_stop_words))

/-- Python `str.strip()`: drop leading and trailing whitespace. -/
def pyStrip (l : List Char) : List Char :=
  ((l.dropWhile isPySpaceChar).reverse.dropWhile isPySpaceChar).reverse

/-- The keep-condition on a Chinese segment `w`:
`w.strip() and w not in zh_stop_words and re.match(r'[一-鿿]+', w)`.
`re.match` anchors at the start of `w` only, so it succeeds exactly when a
non-empty prefix of `w` consists of CJK characters, i.e. when
`w.takeWhile isCJKChar` is non-empty. -/
def zhKeep (w : List Char) : Bool :=
  !(pyStrip w).isEmpty && !decide (w ∈ zh_stop_words) && !(w.takeWhile isCJKChar).isEmpty

/-- A segmentation engine: `jieba.cut` produces a list of segments from the
text.  `none` models the `ImportError` branch (engine unavailable). -/
def zh_words (text : List Char) (seg : Option (List Char → List (List Char))) :
    List (List Char) :=
  match seg with
  | some f => f text
  | none => []

/-- `filtered_zh_words = [w for w in zh_words if w.strip() and w not in
zh_stop_words and re.match(r'[一-鿿]+', w)]`. -/
def filtered_zh_words (text : List Char) (seg : Option (List Char → List (List Char))) :
    List (List Char) :=
  (zh_words text seg).filter zhKeep

/-- `all_words = filtered_en_words + filtered_zh_words`. -/
def all_words (text : List Char) (seg : Option (List Char → List (List Char))) :
    List (List Char) :=
  filtered_en_words text ++ filtered_zh_words text seg

/-- The distinct elements of `l` in order of first occurrence, with `seen`
the elements already emitted: the key order of a Python dict/`Counter` built
by successive insertions. -/
def firstSeenAux : List (List Char) → List (List Char) → List (List Char)
  | [], _ => []
  | x :: xs, seen =>
    if x ∈ seen then firstSeenAux xs seen else x :: firstSeenAux xs (x :: seen)

/-- The distinct elements of `l` in order of first occurrence. -/
def firstSeen (l : List (List Char)) : List (List Char) :=
  firstSeenAux l []

/-- `collections.Counter(l)` as an association list: keys in first-seen
order (Python dicts preserve insertion order), each with its number of
occurrences in `l`. -/
def tally (l : List (List Char)) : List (List Char × Nat) :=
  (firstSeen l).map (fun w => (w, l.count w))

/-- The position of the first occurrence of `a` in `l` (`l.length` when `a`
does not occur): the first-occurrence position used for tie-breaking. -/
def firstIdx {α : Type} [DecidableEq α] (a : α) : List α → Nat
  | [] => 0
  | x :: xs => if x = a then 0 else firstIdx a xs + 1

/-- The comparison underlying `Counter.most_common`: `a` may precede `b`
when `a`'s count is at least `b`'s. -/
def countGE (a b : List Char × Nat) : Prop :=
  b.2 ≤ a.2

instance : DecidableRel countGE := fun a b => Nat.decLe b.2 a.2

instance : IsTotal (List Char × Nat) countGE :=
  ⟨fun a b => Nat.le_total b.2 a.2⟩

instance : IsTrans (List Char × Nat) countGE :=
  ⟨fun _ _ _ hab hbc => Nat.le_trans hbc hab⟩

/-- `Counter.most_common(n)` for an integer `n`: `heapq.nlargest(n, items)`
is the stable descending sort of the items by count, truncated to `n`
(empty for `n ≤ 0`).  Stable sorting is modelled by `List.insertionSort`,
which preserves the original (first-seen) order of equal-count entries. -/
def most_common (n : Int) (freq : List (List Char × Nat)) : List (List Char × Nat) :=
  (List.insertionSort countGE freq).take n.toNat

/-- `WebContentAnalyzer.extract_keywords`, as a function of `self.text`, the
optional segmentation engine, and `top_n`. -/
def extract_keywords (text : List Char) (seg : Option (List Char → List (List Char)))
    (top_n : Int) : List (List Char × Nat) :=
  most_common top_n (tally (all_words text seg))

/-- The mutable state of a `WebContentAnalyzer` instance.  The parsed
document `self.soup` is produced by an external collaborator
(`BeautifulSoup`); its type is left abstract. -/
structure WebContentAnalyzer (Soup : Type) where
  url : List Char
  soup : Option Soup
  text : List Char

/-- The method `count_words` acting on the analyzer state: it reads
`self.text` and contains no assignment to `self`, so the state is returned
unchanged alongside the result. -/
def countWordsM {Soup : Type} (s : WebContentAnalyzer Soup) :
    WebContentAnalyzer Soup × WordStats :=
  (s, count_words s.text)

/-- The method `extract_keywords` acting on the analyzer state: it reads
`self.text` and contains no assignment to `self`, so the state is returned
unchanged alongside the result. -/
def extractKeywordsM {Soup : Type} (s : WebContentAnalyzer Soup)
    (seg : Option (List Char → List (List Char))) (top_n : Int) :
    WebContentAnalyzer Soup × List (List Char × Nat) :=
  (s, extract_keywords s.text seg top_n)

/-! ### Spec-side definitions

Definitions below follow the wording of spec claims, for comparison with the
source-derived definitions above. -/

/-- The natural-language reading of the claim on `english_words`: the number
of maximal runs of ASCII letters bounded by non-letter characters or the
text ends — which are exactly the maximal ASCII-letter runs. -/
def specEnglishLetterRuns (text : List Char) : Nat :=
  (runs Char.isAlpha (normalizeWs text)).length

/-- States of a left-to-right scan counting maximal ASCII-letter runs whose
neighbours on both sides are non-word characters (or the text ends):
`outside` after a non-word character (or at the start), `inWordOk` inside a
run of word characters that so far consists only of ASCII letters and began
at a word boundary, `inWordBad` inside a run of word characters that cannot
be such a letter run. -/
inductive EwState
  | outside
  | inWordOk
  | inWordBad
deriving DecidableEq

/-- One scanning step: the next state and `1` exactly when a maximal
ASCII-letter run bounded by non-word characters ends at this character. -/
def ewStep : EwState → Char → EwState × Nat
  | .outside, c =>
    if c.isAlpha then (.inWordOk, 0)
    else if isWordChar c then (.inWordBad, 0)
    else (.outside, 0)
  | .inWordOk, c =>
    if c.isAlpha then (.inWordOk, 0)
    else if isWordChar c then (.inWordBad, 0)
    else (.outside, 1)
  | .inWordBad, c =>
    if isWordChar c then (.inWordBad, 0) else (.outside, 0)

/-- Run the scan, adding `1` at the end of the text when it ends inside a
pending letter run. -/
def ewRun : EwState → List Char → Nat
  | st, [] => if st = .inWordOk then 1 else 0
  | st, c :: cs => (ewStep st c).2 + ewRun (ewStep st c).1 cs

/-- The amended reading of the claim on `english_words`: the number of
maximal runs of ASCII letters that are bounded by non-word characters or the
text ends (word characters being letters, digits, and underscore). -/
def boundedLetterRunCount (l : List Char) : Nat :=
  ewRun .outside l

/-- The scan state corresponding to a word-character run in progress. -/
def ewStateOf (acc : List Char) : EwState :=
  if acc.isEmpty then .outside
  else if acc.all Char.isAlpha then .inWordOk
  else .inWordBad

example : normalizeWs "  a  b\n c  ".toList = "a b c".toList := by decide

example : count_words "abc1 de".toList =
    { chinese_chars := 0, english_words := 1, total_chars := 7 } := by decide

example : extract_keywords "the cat and dog. cat!".toList none 10 =
    [("cat".toList, 2), ("dog".toList, 1)] := by decide

example : extract_keywords "".toList (some (fun _ => [['貓', 'a']])) 10 =
    [(['貓', 'a'], 1)] := by decide

/-! ### Helper lemmas -/

theorem takeWhile_ne_nil_iff_head {p : Char → Bool} {w : List Char} :
    ¬ w.takeWhile p = [] ↔ ∃ c cs, w = c :: cs ∧ p c = true := by
  cases w with
  | nil => simp
  | cons c cs =>
    by_cases h : p c = true
    · simp only [List.takeWhile_cons, h, if_true]
      constructor
      · exact fun _ => ⟨c, cs, rfl, h⟩
      · simp
    · simp only [List.takeWhile_cons, h]
      simp only [Bool.false_eq_true, if_false, not_true_eq_false, false_iff]
      rintro ⟨d, ds, rfl1, hd⟩
      exact h (by cases rfl1; exact hd)

theorem length_filter_add_length_filter_not (p : Char → Bool) (l : List Char) :
    (l.filter p).length + (l.filter (fun c => !p c)).length = l.length := by
  induction l with
  | nil => rfl
  | cons c cs ih => by_cases h : p c = true <;> simp [List.filter_cons, h, ← ih] <;> omega

theorem runsAux_append_of_all (p : Char → Bool) (w : List Char)
    (h : ∀ c ∈ w, p c = true) :
    ∀ (cs acc : List Char), runsAux p (w ++ cs) acc = runsAux p cs (acc ++ w) := by
  induction w with
  | nil => intro cs acc; simp
  | cons c w ih =>
    intro cs acc
    have hc : p c = true := h c (List.mem_cons_self c w)
    simp only [List.cons_append, runsAux, hc, if_true, List.append_eq]
    rw [ih (fun d hd => h d (List.mem_cons_of_mem c hd)) cs (acc ++ [c])]
    simp

theorem runsAux_members (p : Char → Bool) (l : List Char) :
    ∀ acc : List Char, (∀ c ∈ acc, p c = true) →
      ∀ r ∈ runsAux p l acc, r ≠ [] ∧ ∀ c ∈ r, p c = true := by
  induction l with
  | nil =>
    intro acc hacc r hr
    simp only [runsAux] at hr
    cases ha : acc.isEmpty
    · simp only [ha, Bool.false_eq_true, if_false, List.mem_singleton] at hr
      subst hr
      exact ⟨List.isEmpty_eq_false.mp ha, hacc⟩
    · simp [ha] at hr
  | cons c cs ih =>
    intro acc hacc r hr
    by_cases hc : p c = true
    · simp only [runsAux, hc, if_true] at hr
      refine ih (acc ++ [c]) ?_ r hr
      intro d hd
      rcases List.mem_append.mp hd with h1 | h1
      · exact hacc d h1
      · simpa [List.mem_singleton.mp h1] using hc
    · simp only [runsAux, hc] at hr
      cases ha : acc.isEmpty
      · simp only [ha, Bool.false_eq_true, if_false, List.mem_cons] at hr
        rcases hr with rfl | hr
        · exact ⟨List.isEmpty_eq_false.mp ha, hacc⟩
        · exact ih [] (by simp) r hr
      · simp only [ha, if_true] at hr
        exact ih [] (by simp) r hr

theorem runs_joinSp (p : Char → Bool) (hsp : p ' ' = false) :
    ∀ ws : List (List Char),
      (∀ w ∈ ws, w ≠ [] ∧ ∀ c ∈ w, p c = true) → runs p (joinSp ws) = ws := by
  intro ws
  induction ws with
  | nil => intro _; rfl
  | cons w ws ih =>
    intro h
    obtain ⟨hne, hall⟩ := h w (List.mem_cons_self w ws)
    cases ws with
    | nil =>
      show runsAux p (joinSp [w]) [] = [w]
      have h1 : joinSp [w] = w := rfl
      have h2 := runsAux_append_of_all p w hall [] []
      simp only [List.append_nil, List.nil_append] at h2
      rw [h1, h2]
      simp [runsAux, hne]
    | cons w2 ws2 =>
      show runsAux p (joinSp (w :: w2 :: ws2)) [] = w :: w2 :: ws2
      have h1 : joinSp (w :: w2 :: ws2) = w ++ ' ' :: joinSp (w2 :: ws2) := rfl
      have h2 := runsAux_append_of_all p w hall (' ' :: joinSp (w2 :: ws2)) []
      simp only [List.nil_append] at h2
      rw [h1, h2]
      simp only [runsAux, hsp, Bool.false_eq_true, if_false, hne, List.isEmpty_eq_false.mpr hne]
      have h3 := ih (fun v hv => h v (List.mem_cons_of_mem w hv))
      simpa [runs] using h3

theorem mem_firstSeenAux {x : List Char} :
    ∀ (l seen : List (List Char)), x ∈ firstSeenAux l seen ↔ x ∈ l ∧ x ∉ seen := by
  intro l
  induction l with
  | nil => intro seen; simp [firstSeenAux]
  | cons y ys ih =>
    intro seen
    by_cases hy : y ∈ seen
    · rw [firstSeenAux, if_pos hy, ih]
      constructor
      · rintro ⟨h1, h2⟩
        exact ⟨List.mem_cons_of_mem y h1, h2⟩
      · rintro ⟨h1, h2⟩
        rcases List.mem_cons.mp h1 with rfl | h1
        · exact absurd hy h2
        · exact ⟨h1, h2⟩
    · rw [firstSeenAux, if_neg hy, List.mem_cons, ih]
      constructor
      · rintro (rfl | ⟨h1, h2⟩)
        · exact ⟨List.mem_cons_self x ys, hy⟩
        · refine ⟨List.mem_cons_of_mem y h1, fun hx => h2 (List.mem_cons_of_mem y hx)⟩
      · rintro ⟨h1, h2⟩
        rcases List.mem_cons.mp h1 with rfl | h1
        · exact Or.inl rfl
        · by_cases hxy : x = y
          · exact Or.inl hxy
          · refine Or.inr ⟨h1, fun hx => ?_⟩
            rcases List.mem_cons.mp hx with e | hx
            · exact hxy e
            · exact h2 hx

theorem mem_firstSeen {x : List Char} {l : List (List Char)} :
    x ∈ firstSeen l ↔ x ∈ l := by
  simp [firstSeen, mem_firstSeenAux]

theorem firstIdx_cons_self {α : Type} [DecidableEq α] (a : α) (l : List α) :
    firstIdx a (a :: l) = 0 := by
  simp [firstIdx]

theorem firstIdx_cons_ne {α : Type} [DecidableEq α] {x a : α} (l : List α)
    (h : x ≠ a) : firstIdx a (x :: l) = firstIdx a l + 1 := by
  simp [firstIdx, h]

theorem firstIdx_lt_length {α : Type} [DecidableEq α] {a : α} :
    ∀ {l : List α}, a ∈ l → firstIdx a l < l.length := by
  intro l
  induction l with
  | nil => intro h; exact absurd h (List.not_mem_nil a)
  | cons x xs ih =>
    intro h
    by_cases hx : x = a
    · simp [firstIdx, hx]
    · rw [firstIdx_cons_ne xs hx]
      rcases List.mem_cons.mp h with e | h2
      · exact absurd e.symm hx
      · exact Nat.succ_lt_succ (ih h2)

theorem get_firstIdx {α : Type} [DecidableEq α] {a : α} :
    ∀ {l : List α} (h : firstIdx a l < l.length), l.get ⟨firstIdx a l, h⟩ = a := by
  intro l
  induction l with
  | nil => intro h; exact absurd h (Nat.not_lt_zero _)
  | cons x xs ih =>
    intro h
    by_cases hx : x = a
    · simp [firstIdx, hx]
    · have e : firstIdx a (x :: xs) = firstIdx a xs + 1 := firstIdx_cons_ne xs hx
      have h2 : firstIdx a xs < xs.length := by
        have := h
        rw [e] at this
        exact Nat.lt_of_succ_lt_succ this
      have := ih h2
      simp only [e]
      simpa using this

theorem firstIdx_get_of_nodup {α : Type} [DecidableEq α] :
    ∀ {l : List α}, l.Nodup → ∀ (i : Nat) (h : i < l.length),
      firstIdx (l.get ⟨i, h⟩) l = i := by
  intro l
  induction l with
  | nil => intro _ i h; exact absurd h (Nat.not_lt_zero _)
  | cons x xs ih =>
    intro hnd i h
    have hx := List.nodup_cons.mp hnd
    cases i with
    | zero => simpa using firstIdx_cons_self x xs
    | succ i =>
      have h2 : i < xs.length := Nat.lt_of_succ_lt_succ h
      have hmem : xs.get ⟨i, h2⟩ ∈ xs := xs.get_mem i h2
      have hne : x ≠ xs.get ⟨i, h2⟩ := fun e => hx.1 (e ▸ hmem)
      have hgx : (x :: xs).get ⟨i + 1, h⟩ = xs.get ⟨i, h2⟩ := rfl
      rw [hgx, firstIdx_cons_ne xs hne, ih hx.2 i h2]

theorem pairwise_firstIdx_firstSeenAux :
    ∀ (l seen : List (List Char)),
      (firstSeenAux l seen).Pairwise (fun u v => firstIdx u l < firstIdx v l) := by
  intro l
  induction l with
  | nil => intro seen; simp [firstSeenAux]
  | cons y ys ih =>
    intro seen
    by_cases hy : y ∈ seen
    · rw [firstSeenAux, if_pos hy]
      refine (ih seen).imp_of_mem ?_
      intro a b ha hb hab
      have ha2 := (mem_firstSeenAux ys seen).mp ha
      have hb2 := (mem_firstSeenAux ys seen).mp hb
      have hya : y ≠ a := fun e => ha2.2 (e ▸ hy)
      have hyb : y ≠ b := fun e => hb2.2 (e ▸ hy)
      rw [firstIdx_cons_ne ys hya, firstIdx_cons_ne ys hyb]
      exact Nat.succ_lt_succ hab
    · rw [firstSeenAux, if_neg hy]
      refine List.Pairwise.cons ?_ ?_
      · intro u hu
        have hu2 := (mem_firstSeenAux ys (y :: seen)).mp hu
        have hyu : y ≠ u := fun e => hu2.2 (e ▸ List.mem_cons_self y seen)
        rw [firstIdx_cons_self, firstIdx_cons_ne ys hyu]
        exact Nat.succ_pos _
      · refine (ih (y :: seen)).imp_of_mem ?_
        intro a b ha hb hab
        have ha2 := (mem_firstSeenAux ys (y :: seen)).mp ha
        have hb2 := (mem_firstSeenAux ys (y :: seen)).mp hb
        have hya : y ≠ a := fun e => ha2.2 (e ▸ List.mem_cons_self y seen)
        have hyb : y ≠ b := fun e => hb2.2 (e ▸ List.mem_cons_self y seen)
        rw [firstIdx_cons_ne ys hya, firstIdx_cons_ne ys hyb]
        exact Nat.succ_lt_succ hab

theorem pairwise_firstIdx_firstSeen (l : List (List Char)) :
    (firstSeen l).Pairwise (fun u v => firstIdx u l < firstIdx v l) :=
  pairwise_firstIdx_firstSeenAux l []

theorem nodup_firstSeen (l : List (List Char)) : (firstSeen l).Nodup :=
  (pairwise_firstIdx_firstSeen l).imp fun hab e => absurd (e ▸ hab) (lt_irrefl _)

theorem tally_map_fst (l : List (List Char)) :
    (tally l).map Prod.fst = firstSeen l := by
  simp [tally, List.map_map, Function.comp_def]

theorem nodup_tally (l : List (List Char)) : (tally l).Nodup := by
  refine List.Nodup.of_map Prod.fst ?_
  rw [tally_map_fst]
  exact nodup_firstSeen l

theorem mem_tally {l : List (List Char)} {p : List Char × Nat} :
    p ∈ tally l ↔ p.1 ∈ l ∧ p.2 = l.count p.1 := by
  simp only [tally, List.mem_map]
  constructor
  · rintro ⟨w, hw, rfl⟩
    exact ⟨mem_firstSeen.mp hw, rfl⟩
  · rintro ⟨h1, h2⟩
    refine ⟨p.1, mem_firstSeen.mpr h1, ?_⟩
    cases p with
    | mk w c => simp only at h2 ⊢; rw [h2]

theorem pair_get_sublist {α : Type} :
    ∀ (l : List α) (i j : Nat) (hi : i < l.length) (hj : j < l.length),
      i < j → List.Sublist [l.get ⟨i, hi⟩, l.get ⟨j, hj⟩] l := by
  intro l
  induction l with
  | nil => intro i j hi _ _; exact absurd hi (Nat.not_lt_zero i)
  | cons a t ih =>
    intro i j hi hj hij
    cases i with
    | zero =>
      cases j with
      | zero => exact absurd hij (lt_irrefl 0)
      | succ j =>
        have hj2 : j < t.length := Nat.lt_of_succ_lt_succ hj
        have hmem : t.get ⟨j, hj2⟩ ∈ t := t.get_mem j hj2
        exact (List.singleton_sublist.mpr hmem).cons₂ a
    | succ i =>
      cases j with
      | zero => exact absurd hij (Nat.not_lt_zero _)
      | succ j =>
        exact (ih i j (Nat.lt_of_succ_lt_succ hi) (Nat.lt_of_succ_lt_succ hj)
          (Nat.lt_of_succ_lt_succ hij)).cons a

theorem firstIdx_lt_of_pair_sublist {α : Type} [DecidableEq α] {a b : α} :
    ∀ {l : List α}, l.Nodup → List.Sublist [a, b] l → firstIdx a l < firstIdx b l := by
  intro l
  induction l with
  | nil => intro _ h; exact absurd h (by simp)
  | cons c t ih =>
    intro hnd h
    have hct := List.nodup_cons.mp hnd
    cases h with
    | cons _ h2 =>
      have hat : a ∈ t := h2.subset (List.mem_cons_self a [b])
      have hbt : b ∈ t := h2.subset (List.mem_cons_of_mem a (List.mem_cons_self b []))
      have hca : c ≠ a := fun e => hct.1 (e ▸ hat)
      have hcb : c ≠ b := fun e => hct.1 (e ▸ hbt)
      rw [firstIdx_cons_ne t hca, firstIdx_cons_ne t hcb]
      exact Nat.succ_lt_succ (ih hct.2 h2)
    | cons₂ _ h2 =>
      have hbt : b ∈ t := List.singleton_sublist.mp h2
      have hab : a ≠ b := fun e => hct.1 (e ▸ hbt)
      rw [firstIdx_cons_self, firstIdx_cons_ne t hab]
      exact Nat.succ_pos _

theorem isAlpha_eq_false_of_not_word {c : Char} (hw : isWordChar c = false) :
    c.isAlpha = false := by
  revert hw
  unfold isWordChar
  cases c.isAlpha <;> simp

theorem ewStep_word (acc : List Char) (c : Char) (hw : isWordChar c = true) :
    ewStep (ewStateOf acc) c = (ewStateOf (acc ++ [c]), 0) := by
  by_cases ha : acc.isEmpty = true
  · have he : acc = [] := List.isEmpty_iff.mp ha
    subst he
    by_cases hc : c.isAlpha = true <;>
      simp [ewStateOf, ewStep, hw, hc]
  · have ha2 : acc.isEmpty = false := Bool.not_eq_true _ ▸ Bool.of_not_eq_true ha
    by_cases hall : acc.all Char.isAlpha = true
    · by_cases hc : c.isAlpha = true <;>
        simp [ewStateOf, ewStep, hw, hc, ha2, hall, List.all_append]
    · have hall2 : acc.all Char.isAlpha = false := Bool.of_not_eq_true hall
      simp [ewStateOf, ewStep, hw, ha2, hall2, List.all_append]

theorem ewStep_nonword (acc : List Char) (c : Char) (hw : isWordChar c = false) :
    ewStep (ewStateOf acc) c
      = (.outside, if ewStateOf acc = .inWordOk then 1 else 0) := by
  have hc : c.isAlpha = false := isAlpha_eq_false_of_not_word hw
  by_cases ha : acc.isEmpty = true
  · simp [ewStateOf, ewStep, hw, hc, ha]
  · have ha2 : acc.isEmpty = false := Bool.of_not_eq_true ha
    by_cases hall : acc.all Char.isAlpha = true
    · simp [ewStateOf, ewStep, hw, hc, ha2, hall]
    · have hall2 : acc.all Char.isAlpha = false := Bool.of_not_eq_true hall
      simp [ewStateOf, ewStep, hw, hc, ha2, hall2]

theorem ewRun_runsAux (l : List Char) :
    ∀ acc : List Char,
      ((runsAux isWordChar l acc).filter (fun r => r.all Char.isAlpha)).length
        = ewRun (ewStateOf acc) l := by
  induction l with
  | nil =>
    intro acc
    by_cases ha : acc.isEmpty = true
    · simp [runsAux, ha, ewRun, ewStateOf]
    · have ha2 : acc.isEmpty = false := Bool.of_not_eq_true ha
      by_cases hall : acc.all Char.isAlpha = true
      · simp [runsAux, ha2, ewRun, ewStateOf, hall]
      · have hall2 : acc.all Char.isAlpha = false := Bool.of_not_eq_true hall
        simp [runsAux, ha2, ewRun, ewStateOf, hall2]
  | cons c cs ih =>
    intro acc
    by_cases hw : isWordChar c = true
    · rw [show runsAux isWordChar (c :: cs) acc = runsAux isWordChar cs (acc ++ [c]) by
        simp [runsAux, hw]]
      rw [ih (acc ++ [c])]
      rw [show ewRun (ewStateOf acc) (c :: cs)
          = (ewStep (ewStateOf acc) c).2 + ewRun (ewStep (ewStateOf acc) c).1 cs from rfl]
      rw [ewStep_word acc c hw]
      simp
    · have hw2 : isWordChar c = false := Bool.of_not_eq_true hw
      rw [show ewRun (ewStateOf acc) (c :: cs)
          = (ewStep (ewStateOf acc) c).2 + ewRun (ewStep (ewStateOf acc) c).1 cs from rfl]
      rw [ewStep_nonword acc c hw2]
      by_cases ha : acc.isEmpty = true
      · rw [show runsAux isWordChar (c :: cs) acc = runsAux isWordChar cs [] by
          simp [runsAux, hw2, ha]]
        rw [ih []]
        have hst : ewStateOf acc = .outside := by simp [ewStateOf, ha]
        rw [hst]
        simp [ewStateOf]
      · have ha2 : acc.isEmpty = false := Bool.of_not_eq_true ha
        rw [show runsAux isWordChar (c :: cs) acc = acc :: runsAux isWordChar cs [] by
          simp [runsAux, hw2, ha2]]
        rw [List.filter_cons]
        by_cases hall : acc.all Char.isAlpha = true
        · have hst : ewStateOf acc = .inWordOk := by simp [ewStateOf, ha2, hall]
          simp only [hall, if_true, List.length_cons, ih [], hst]
          simp [ewStateOf, Nat.add_comm]
        · have hall2 : acc.all Char.isAlpha = false := Bool.of_not_eq_true hall
          have hst : ewStateOf acc = .inWordBad := by simp [ewStateOf, ha2, hall2]
          simp only [hall2, Bool.false_eq_true, if_false, ih [], hst]
          simp [ewStateOf]

theorem tally_get_fst (s : List (List Char)) (p : Nat)
    (hp : p < (tally s).length) (hp2 : p < (firstSeen s).length) :
    ((tally s).get ⟨p, hp⟩).1 = (firstSeen s).get ⟨p, hp2⟩ := by
  simp [tally]

theorem sorted_tally_firstIdx {s : List (List Char)} {i j : Nat}
    (hi : i < (List.insertionSort countGE (tally s)).length)
    (hj : j < (List.insertionSort countGE (tally s)).length) (hij : i < j)
    (hc : ((List.insertionSort countGE (tally s)).get ⟨i, hi⟩).2
        = ((List.insertionSort countGE (tally s)).get ⟨j, hj⟩).2) :
    firstIdx ((List.insertionSort countGE (tally s)).get ⟨i, hi⟩).1 s
      < firstIdx ((List.insertionSort countGE (tally s)).get ⟨j, hj⟩).1 s := by
  set T := tally s with hT
  set S := List.insertionSort countGE T with hS
  have hperm : List.Perm S T := List.perm_insertionSort countGE T
  have hndT : T.Nodup := nodup_tally s
  have hndS : S.Nodup := hperm.nodup_iff.mpr hndT
  set e1 := S.get ⟨i, hi⟩ with he1
  set e2 := S.get ⟨j, hj⟩ with he2
  have hne : e1 ≠ e2 := by
    intro e
    have h2 := List.nodup_iff_injective_get.mp hndS e
    have : i = j := congrArg Fin.val h2
    omega
  have he1T : e1 ∈ T := hperm.mem_iff.mp (S.get_mem i hi)
  have he2T : e2 ∈ T := hperm.mem_iff.mp (S.get_mem j hj)
  have hp : firstIdx e1 T < T.length := firstIdx_lt_length he1T
  have hq : firstIdx e2 T < T.length := firstIdx_lt_length he2T
  have hgp : T.get ⟨firstIdx e1 T, hp⟩ = e1 := get_firstIdx hp
  have hgq : T.get ⟨firstIdx e2 T, hq⟩ = e2 := get_firstIdx hq
  have hlt : firstIdx e1 T < firstIdx e2 T := by
    rcases Nat.lt_trichotomy (firstIdx e1 T) (firstIdx e2 T) with h1 | h1 | h1
    · exact h1
    · exfalso
      refine hne ?_
      rw [← hgp, ← hgq]
      congr 1
      exact Fin.mk_eq_mk.mpr h1
    · exfalso
      have hsub : List.Sublist [e2, e1] T := by
        have h2 := pair_get_sublist T (firstIdx e2 T) (firstIdx e1 T) hq hp h1
        rwa [hgp, hgq] at h2
      have hcGE : countGE e2 e1 := le_of_eq hc
      have hsubS : List.Sublist [e2, e1] S :=
        List.pair_sublist_insertionSort hcGE hsub
      have h3 : firstIdx e2 S < firstIdx e1 S :=
        firstIdx_lt_of_pair_sublist hndS hsubS
      have hie : firstIdx e1 S = i := by
        rw [he1]
        exact firstIdx_get_of_nodup hndS i hi
      have hje : firstIdx e2 S = j := by
        rw [he2]
        exact firstIdx_get_of_nodup hndS j hj
      omega
  have hlen : T.length = (firstSeen s).length := by
    rw [hT, tally, List.length_map]
  have hp2 : firstIdx e1 T < (firstSeen s).length := hlen ▸ hp
  have hq2 : firstIdx e2 T < (firstSeen s).length := hlen ▸ hq
  have hfs1 : (firstSeen s).get ⟨firstIdx e1 T, hp2⟩ = e1.1 :=
    (tally_get_fst s _ hp hp2).symm.trans (congrArg Prod.fst hgp)
  have hfs2 : (firstSeen s).get ⟨firstIdx e2 T, hq2⟩ = e2.1 :=
    (tally_get_fst s _ hq hq2).symm.trans (congrArg Prod.fst hgq)
  have hpw := List.pairwise_iff_get.mp (pairwise_firstIdx_firstSeen s)
  have h4 := hpw ⟨firstIdx e1 T, hp2⟩ ⟨firstIdx e2 T, hq2⟩ hlt
  rwa [hfs1, hfs2] at h4

/-! ### Claim theorems -/

/-- C1 (counterexample): with a segmenter producing the single segment
`貓a`, which contains the Latin letter `a`, `extract_keywords` keeps the
whole segment — the claim states that every segment containing a Latin
letter is dropped. -/
theorem zh_segment_with_latin_kept :
    extract_keywords [] (some (fun _ => [['貓', 'a']])) 10 = [(['貓', 'a'], 1)]
    ∧ 'a' ∈ ['貓', 'a'] ∧ 'a'.isAlpha = true ∧ isCJKChar 'a' = false := by
  decide

/-- C1 (amended): a Chinese segment is kept by `extract_keywords` if and
only if it is non-empty after trimming whitespace, is not in the fixed
Chinese stop-word set, and its first character is in the CJK Unified
Ideographs range (`re.match` anchors at the start only, so later characters
are unconstrained); the segment is always kept or dropped whole. -/
theorem filtered_zh_words_mem_iff (text : List Char)
    (seg : Option (List Char → List (List Char))) (w : List Char) :
    w ∈ filtered_zh_words text seg ↔
      w ∈ zh_words text seg ∧ pyStrip w ≠ [] ∧ w ∉ zh_stop_words ∧
        ∃ c cs, w = c :: cs ∧ isCJKChar c = true := by
  simp only [filtered_zh_words, List.mem_filter, zhKeep, Bool.and_eq_true,
    Bool.not_eq_true', List.isEmpty_eq_false, ne_eq, decide_eq_false_iff_not,
    takeWhile_ne_nil_iff_head]
  tauto

/-- C4 (counterexample): on input `abc1` the canonical text has one maximal
run of ASCII letters bounded by non-letter characters (`abc`, bounded by the
digit `1`), but `english_words` is `0`, because the regex word boundary `\b`
requires a non-word character and digits are word characters. -/
theorem english_words_boundary_counterexample :
    (count_words "abc1".toList).english_words = 0
    ∧ specEnglishLetterRuns "abc1".toList = 1 := by
  decide

/-- C4 (amended): `english_words` equals the number of maximal runs of
ASCII letters that are bounded by non-word characters or the text ends in
the canonical text (the regex word boundary `\b` treats digits and
underscore as word characters, so letter runs adjacent to them are not
counted). -/
theorem english_words_machine (text : List Char) :
    (count_words text).english_words = boundedLetterRunCount (normalizeWs text) := by
  show ((runsAux isWordChar (normalizeWs text) []).filter
      (fun r => r.all Char.isAlpha)).length = ewRun .outside (normalizeWs text)
  rw [ewRun_runsAux (normalizeWs text) []]
  rfl

/-- C5: when the segmentation engine is unavailable (`ImportError`), the
Chinese token sequence is empty and `extract_keywords` returns exactly the
ranked filtered Latin tokens. -/
theorem extract_keywords_segmenter_unavailable (text : List Char) (top_n : Int) :
    extract_keywords text none top_n
        = most_common top_n (tally (filtered_en_words text))
      ∧ zh_words text none = [] ∧ filtered_zh_words text none = [] := by
  refine ⟨?_, rfl, rfl⟩
  simp [extract_keywords, all_words, filtered_zh_words, zh_words]

/-- C6: `extract_keywords` with `top_n ≤ 0` returns the empty sequence. -/
theorem extract_keywords_top_n_nonpos (text : List Char)
    (seg : Option (List Char → List (List Char))) (top_n : Int)
    (h : top_n ≤ 0) :
    extract_keywords text seg top_n = [] := by
  simp [extract_keywords, most_common, Int.toNat_of_nonpos h]

/-- C6 (witness): concrete instance at `top_n = 0`. -/
theorem extract_keywords_top_n_nonpos_witness :
    extract_keywords "cat dog".toList none 0 = [] :=
  extract_keywords_top_n_nonpos "cat dog".toList none 0 (by decide)

/-- C7: whitespace normalization is idempotent — normalizing the canonical
text produced by one pass returns it unchanged. -/
theorem normalizeWs_idempotent (x : List Char) :
    normalizeWs (normalizeWs x) = normalizeWs x := by
  show joinSp (runs _ (joinSp (runs _ x))) = joinSp (runs _ x)
  congr 1
  exact runs_joinSp _ (by decide) _
    (runsAux_members (fun c => !isPySpaceChar c) x [] (by simp))

/-- C8: the Chinese-character count plus the number of canonical-text
characters outside the CJK range equals the total character count, and empty
input yields all-zero counts. -/
theorem count_words_partition (text : List Char) :
    (count_words text).chinese_chars
        + ((normalizeWs text).filter (fun c => !isCJKChar c)).length
      = (count_words text).total_chars
    ∧ count_words [] = { chinese_chars := 0, english_words := 0, total_chars := 0 } := by
  refine ⟨?_, rfl⟩
  simp only [count_words]
  exact length_filter_add_length_filter_not isCJKChar (normalizeWs text)

/-- C9: the words in the ranked output are pairwise distinct and every
reported count is positive and equals the number of occurrences of the word
in the combined filtered stream. -/
theorem extract_keywords_entries (text : List Char)
    (seg : Option (List Char → List (List Char))) (top_n : Int) :
    ((extract_keywords text seg top_n).map Prod.fst).Nodup
    ∧ ∀ p ∈ extract_keywords text seg top_n,
        0 < p.2 ∧ p.2 = (all_words text seg).count p.1 := by
  have hperm :
      List.Perm (List.insertionSort countGE (tally (all_words text seg)))
        (tally (all_words text seg)) :=
    List.perm_insertionSort countGE _
  have hout : extract_keywords text seg top_n
      = (List.insertionSort countGE (tally (all_words text seg))).take top_n.toNat := rfl
  constructor
  · have h1 : List.Sublist ((extract_keywords text seg top_n).map Prod.fst)
        ((List.insertionSort countGE (tally (all_words text seg))).map Prod.fst) := by
      rw [hout]
      exact (List.take_sublist _ _).map _
    have h2 : ((List.insertionSort countGE (tally (all_words text seg))).map Prod.fst).Nodup := by
      rw [(hperm.map Prod.fst).nodup_iff, tally_map_fst]
      exact nodup_firstSeen _
    exact h2.sublist h1
  · intro p hp
    have hp1 : p ∈ tally (all_words text seg) := by
      rw [hout] at hp
      exact hperm.mem_iff.mp (List.take_subset _ _ hp)
    have hp2 := mem_tally.mp hp1
    exact ⟨hp2.2 ▸ List.count_pos_iff.mpr hp2.1, hp2.2⟩

/-- C2: among output entries with equal counts, the entry whose word occurs
first earlier in the combined filtered stream is ranked earlier. -/
theorem extract_keywords_tie_break (text : List Char)
    (seg : Option (List Char → List (List Char))) (top_n : Int)
    (i j : Nat) (hi : i < (extract_keywords text seg top_n).length)
    (hj : j < (extract_keywords text seg top_n).length) (hij : i < j)
    (hc : ((extract_keywords text seg top_n).get ⟨i, hi⟩).2
        = ((extract_keywords text seg top_n).get ⟨j, hj⟩).2) :
    firstIdx ((extract_keywords text seg top_n).get ⟨i, hi⟩).1 (all_words text seg)
      < firstIdx ((extract_keywords text seg top_n).get ⟨j, hj⟩).1 (all_words text seg) := by
  have hout : extract_keywords text seg top_n
      = (List.insertionSort countGE (tally (all_words text seg))).take top_n.toNat := rfl
  have hlenle : (extract_keywords text seg top_n).length
      ≤ (List.insertionSort countGE (tally (all_words text seg))).length := by
    rw [hout]
    exact List.length_take_le' _ _
  have key : ∀ (k : Nat) (hk : k < (extract_keywords text seg top_n).length),
      (extract_keywords text seg top_n).get ⟨k, hk⟩
        = (List.insertionSort countGE (tally (all_words text seg))).get
            ⟨k, Nat.lt_of_lt_of_le hk hlenle⟩ := by
    intro k hk
    simp only [List.get_eq_getElem]
    simp only [hout, List.getElem_take]
  rw [key i hi, key j hj] at hc ⊢
  exact sorted_tally_firstIdx (Nat.lt_of_lt_of_le hi hlenle)
    (Nat.lt_of_lt_of_le hj hlenle) hij hc

/-- C2 (witness): on the stream `cat, dog, cat, dog` both words have count
2 and `cat` occurs first, so it is ranked first. -/
theorem extract_keywords_tie_break_witness :
    firstIdx ((extract_keywords "cat dog cat dog".toList none 10).get
        ⟨0, by decide⟩).1 (all_words "cat dog cat dog".toList none)
      < firstIdx ((extract_keywords "cat dog cat dog".toList none 10).get
        ⟨1, by decide⟩).1 (all_words "cat dog cat dog".toList none) :=
  extract_keywords_tie_break "cat dog cat dog".toList none 10 0 1
    (by decide) (by decide) (by decide) (by decide)

/-- C3: for `top_n > 0` the ranked output has length exactly
`min top_n (number of distinct filtered token strings)` and its counts are
non-increasing. -/
theorem extract_keywords_length_and_sorted (text : List Char)
    (seg : Option (List Char → List (List Char))) (top_n : Int)
    (h : 0 < top_n) :
    (extract_keywords text seg top_n).length
        = min top_n.toNat (all_words text seg).toFinset.card
    ∧ ((extract_keywords text seg top_n).map Prod.snd).Sorted (fun a b => b ≤ a) := by
  have hout : extract_keywords text seg top_n
      = (List.insertionSort countGE (tally (all_words text seg))).take top_n.toNat := rfl
  constructor
  · rw [hout, List.length_take, List.length_insertionSort, tally, List.length_map]
    congr 1
    rw [← List.toFinset_card_of_nodup (nodup_firstSeen (all_words text seg))]
    congr 1
    ext a
    simp [List.mem_toFinset, mem_firstSeen]
  · have hs : (List.insertionSort countGE (tally (all_words text seg))).Sorted countGE :=
      List.sorted_insertionSort countGE _
    have hs2 : (extract_keywords text seg top_n).Sorted countGE := by
      rw [hout]
      exact hs.sublist (List.take_sublist _ _)
    exact List.pairwise_map.mpr hs2

/-- C3 (witness): concrete instance with two distinct tokens and
`top_n = 2`. -/
theorem extract_keywords_length_and_sorted_witness :
    (extract_keywords "cat dog cat".toList none 2).length
        = min (Int.toNat 2) (all_words "cat dog cat".toList none).toFinset.card
    ∧ ((extract_keywords "cat dog cat".toList none 2).map Prod.snd).Sorted
        (fun a b => b ≤ a) :=
  extract_keywords_length_and_sorted "cat dog cat".toList none 2 (by decide)

/-- C10: `count_words` and `extract_keywords` leave the analyzer state
(`url`, `soup`, `text`) unchanged, and repeated calls in either order return
the same results. -/
theorem analyzer_methods_read_only {Soup : Type} (s : WebContentAnalyzer Soup)
    (seg : Option (List Char → List (List Char))) (top_n : Int) :
    (countWordsM s).1 = s ∧ (extractKeywordsM s seg top_n).1 = s
    ∧ (countWordsM s).1.url = s.url ∧ (countWordsM s).1.soup = s.soup
    ∧ (countWordsM s).1.text = s.text
    ∧ (extractKeywordsM s seg top_n).1.url = s.url
    ∧ (extractKeywordsM s seg top_n).1.soup = s.soup
    ∧ (extractKeywordsM s seg top_n).1.text = s.text
    ∧ (countWordsM (extractKeywordsM s seg top_n).1).2 = (countWordsM s).2
    ∧ (extractKeywordsM (countWordsM s).1 seg top_n).2
        = (extractKeywordsM s seg top_n).2 :=
  ⟨rfl, rfl, rfl, rfl, rfl, rfl, rfl, rfl, rfl, rfl⟩

end WebAnalyzer
